import Mathlib

/-
  Verification of the hday codec of tjorim/HdayPlanner.

  Shallow embedding of src/backend/app/hday/parser.py and
  src/backend/app/hday/models.py.  Text is modelled as `List Char`.
  Python's `re` character classes (`[a-z]` under `re.I`, `\d`, `\s`) and
  `str.strip` / `str.splitlines` are modelled over the character sets that
  matter for this codec (the ASCII classes together with the Unicode
  line-break/whitespace code points that `splitlines` recognises); the
  regex matching itself is deterministic for these two patterns (the
  quantified groups match disjoint character classes, so greedy/lazy
  backtracking collapses to maximal-run splitting), which is how it is
  embedded below.
-/

namespace Hday

/-- The `[a-z]` class of RE_RANGE / RE_WEEKLY under `re.I` (ASCII part):
    ASCII letters of either case. -/
def isAsciiLetter (c : Char) : Bool :=
  (97 ≤ c.toNat && c.toNat ≤ 122) || (65 ≤ c.toNat && c.toNat ≤ 90)

/-- The `\d` class (ASCII part). -/
def isDigitCh (c : Char) : Bool := 48 ≤ c.toNat && c.toNat ≤ 57

/-- The `\s` class / `str.strip` whitespace: space, tab, and the control and
    Unicode whitespace characters Python strips. -/
def isSpaceCh (c : Char) : Bool :=
  c.toNat = 32 || c.toNat = 9 || c.toNat = 10 || c.toNat = 13 ||
  c.toNat = 11 || c.toNat = 12 || c.toNat = 28 || c.toNat = 29 ||
  c.toNat = 30 || c.toNat = 133 || c.toNat = 160 ||
  c.toNat = 8232 || c.toNat = 8233

/-- The line terminators recognised by `str.splitlines`. -/
def isLineBreak (c : Char) : Bool :=
  c.toNat = 10 || c.toNat = 13 || c.toNat = 11 || c.toNat = 12 ||
  c.toNat = 28 || c.toNat = 29 || c.toNat = 30 || c.toNat = 133 ||
  c.toNat = 8232 || c.toNat = 8233

/-- `str.strip()`: drop leading and trailing whitespace. -/
def stripChars (l : List Char) : List Char :=
  ((l.dropWhile isSpaceCh).reverse.dropWhile isSpaceCh).reverse

/-- Collapse each `\r\n` pair to a single `\n` (splitlines treats the pair
    as one terminator). -/
def normCRLF : List Char → List Char
  | [] => []
  | [c] => [c]
  | c1 :: c2 :: rest =>
    if c1 = '\r' ∧ c2 = '\n' then '\n' :: normCRLF rest
    else c1 :: normCRLF (c2 :: rest)

/-- Split on single-character terminators; a final segment is emitted only
    when non-empty (matching `str.splitlines`). -/
def splitBreaks : List Char → List Char → List (List Char)
  | [], cur => if cur = [] then [] else [cur.reverse]
  | c :: rest, cur =>
    if isLineBreak c then cur.reverse :: splitBreaks rest []
    else splitBreaks rest (c :: cur)

/-- `str.splitlines()`. -/
def pySplitlines (l : List Char) : List (List Char) :=
  splitBreaks (normCRLF l) []

/-- PREFIX_MAP of parser.py (a Python dict, embedded as its entry list). -/
def PREFIX_MAP : List (Char × List Char) :=
  [('a', "half_am".toList), ('p', "half_pm".toList), ('b', "business".toList),
   ('e', "weekend".toList), ('h', "birthday".toList), ('i', "ill".toList),
   ('k', "in".toList), ('s', "course".toList), ('u', "other".toList),
   ('w', "onsite".toList), ('n', "no_fly".toList), ('f', "can_fly".toList)]

/-- `PREFIX_MAP.get(ch)` (dict lookup; keys are distinct so first match). -/
def prefixGet (c : Char) : Option (List Char) :=
  (PREFIX_MAP.find? (fun p => decide (p.1 = c))).map (·.2)

/-- `REV_MAP = {v:k for k,v in PREFIX_MAP.items()}`. -/
def REV_MAP : List (List Char × Char) :=
  PREFIX_MAP.map (fun p => (p.2, p.1))

/-- `REV_MAP.get(f)`. -/
def revGet (f : List Char) : Option Char :=
  (REV_MAP.find? (fun p => decide (p.1 = f))).map (·.2)

/-- `PREFIX_MAP.get(ch, f'flag_{ch}')`: the flag decoded from one letter. -/
def flagTagOf (ch : Char) : List Char :=
  (prefixGet ch).getD ("flag_".toList ++ [ch])

/-- `[PREFIX_MAP.get(ch, f'flag_{ch}') for ch in prefix]`. -/
def decodeFlags (letters : List Char) : List (List Char) :=
  letters.map flagTagOf

/-- time_location_flags of normalize_flags. -/
def time_location_flags : List (List Char) :=
  ["half_am".toList, "half_pm".toList, "onsite".toList,
   "no_fly".toList, "can_fly".toList]

/-- type_flags of normalize_flags (also the tuple tested at parser.py line 49). -/
def type_flags : List (List Char) :=
  ["business".toList, "weekend".toList, "birthday".toList, "ill".toList,
   "in".toList, "course".toList, "other".toList]

/-- One exclusivity pass of normalize_flags: if more than one member of
    `fam` occurs, keep only flags outside `fam` or equal to the first
    member found (the diagnostic print is a side effect with no bearing on
    the returned value and is not modelled). -/
def keepFirstFam (fam : List (List Char)) (flags : List (List Char)) :
    List (List Char) :=
  match flags.filter (fun f => decide (f ∈ fam)) with
  | [] => flags
  | [_] => flags
  | first :: _ :: _ =>
    flags.filter (fun f => !(decide (f ∈ fam)) || decide (f = first))

/-- normalize_flags: the time/location pass runs first, then the type pass. -/
def normalize_flags (flags : List (List Char)) : List (List Char) :=
  keepFirstFam type_flags (keepFirstFam time_location_flags flags)

/-- `any(f in ('business',...,'other') for f in flags)` at lines 49/62. -/
def hasTypeFlag (flags : List (List Char)) : Bool :=
  flags.any (fun f => decide (f ∈ type_flags))

/-- Lines 49–50 / 62–63: append 'holiday' when no type-family flag remains. -/
def addHoliday (flags : List (List Char)) : List (List Char) :=
  if hasTypeFlag flags then flags else flags ++ ["holiday".toList]

/-- `\d{4}/\d{2}/\d{2}` as a shape test on a whole list. -/
def dateShape : List Char → Bool
  | [c1, c2, c3, c4, c5, c6, c7, c8, c9, c10] =>
    isDigitCh c1 && isDigitCh c2 && isDigitCh c3 && isDigitCh c4 &&
    decide (c5 = '/') && isDigitCh c6 && isDigitCh c7 && decide (c8 = '/') &&
    isDigitCh c9 && isDigitCh c10
  | _ => false

/-- Consume a leading `\d{4}/\d{2}/\d{2}` (the regex consumes exactly ten
    characters of that shape, or fails). -/
def matchDate (l : List Char) : Option (List Char × List Char) :=
  if dateShape (l.take 10) then some (l.take 10, l.drop 10) else none

/-- The optional `(?:-(?P<end>DATE))?` group.  When the literal `-` is
    present but no date follows, the group matches nothing and the input is
    left for the title group (which then necessarily fails, as in the
    regex). -/
def matchEnd (r : List Char) : Option (List Char) × List Char :=
  match r with
  | c :: rest =>
    if c = '-' then
      match matchDate rest with
      | some (e, r2) => (some e, r2)
      | none => (none, c :: rest)
    else (none, c :: rest)
  | [] => (none, [])

/-- The optional `(?:\s*#\s*(?P<title>.*))?$` tail: the remainder must be
    empty (group absent, title None) or whitespace, `#`, whitespace, then
    the captured title. -/
def matchTitle (r : List Char) : Option (Option (List Char)) :=
  if r = [] then some none
  else
    match r.dropWhile isSpaceCh with
    | c :: after =>
      if c = '#' then some (some (after.dropWhile isSpaceCh)) else none
    | [] => none

/-- RE_RANGE.match: prefix letters (maximal run), start date, optional
    `-end`, optional title.  Returns (prefix, start, end?, title?). -/
def matchRange (ln : List Char) :
    Option (List Char × List Char × Option (List Char) × Option (List Char)) :=
  (matchDate (ln.dropWhile isAsciiLetter)).bind (fun p =>
    (matchTitle (matchEnd p.2).2).map (fun t =>
      (ln.takeWhile isAsciiLetter, p.1, (matchEnd p.2).1, t)))

/-- RE_WEEKLY.match: `d`/`D`, weekday digit 1–7, suffix letters, optional
    title.  Returns (weekday, suffix, title?). -/
def matchWeekly (ln : List Char) :
    Option (Nat × List Char × Option (List Char)) :=
  match ln with
  | d0 :: w :: rest =>
    if (d0 = 'd' ∨ d0 = 'D') ∧ (49 ≤ w.toNat ∧ w.toNat ≤ 55) then
      (matchTitle (rest.dropWhile isAsciiLetter)).map (fun t =>
        (w.toNat - 48, rest.takeWhile isAsciiLetter, t))
    else none
  | _ => none

/-- models.py event variants (the `type` Literal). -/
inductive EvType
  | range
  | weekly
  | unknown
deriving DecidableEq, Repr

/-- models.py HdayEvent.  Optional fields absent in a variant keep their
    defaults (`None`/`''` modelled as `[]`, weekday `None` as 0). -/
structure HdayEvent where
  type : EvType
  start : List Char := []
  «end» : List Char := []
  weekday : Nat := 0
  flags : List (List Char) := []
  title : List Char := []
  raw : List Char := []
deriving DecidableEq, Repr

/-- The `Flag` Literal of models.py: the only flag values the pydantic
    model accepts; constructing an HdayEvent whose flags list contains any
    other value raises a ValidationError. -/
def Flag_allowed : List (List Char) :=
  ["half_am".toList, "half_pm".toList, "business".toList,
   "course".toList, "in".toList, "holiday".toList]

/-- The body of the parse_text loop for one stripped non-blank line. -/
def parseLine (ln : List Char) : HdayEvent :=
  match matchRange ln with
  | some (pre, start, endOpt, titleOpt) =>
    { type := .range, start := start, «end» := endOpt.getD start,
      flags := addHoliday (normalize_flags (decodeFlags pre)),
      title := stripChars (titleOpt.getD []), raw := ln }
  | none =>
    match matchWeekly ln with
    | some (wd, suf, titleOpt) =>
      { type := .weekly, weekday := wd,
        flags := addHoliday (normalize_flags (decodeFlags suf)),
        title := stripChars (titleOpt.getD []), raw := ln }
    | none => { type := .unknown, flags := ["holiday".toList], raw := ln }

/-- parse_text (the pure algorithm of parser.py; the pydantic validation
    models.py imposes on each constructed event is captured separately by
    `Flag_allowed`). -/
def parse_text (text : List Char) : List HdayEvent :=
  let lines :=
    ((pySplitlines text).filter (fun l => !(stripChars l).isEmpty)).map
      stripChars
  lines.map parseLine

/-- models.py validation as pydantic applies it: an HdayEvent is accepted
    iff every entry of its flags list is a value of the Flag Literal. -/
def eventModelValid (ev : HdayEvent) : Bool :=
  ev.flags.all (fun f => decide (f ∈ Flag_allowed))

/-- parse_text as the caller observes it: parser.py raises a pydantic
    ValidationError as soon as the loop constructs an event whose flags
    leave the Flag Literal, so the call raises — modelled as none —
    exactly when some produced event is invalid, and otherwise returns the
    event list.  (The real exception fires at the first invalid event;
    only whether it fires is observable in the call's outcome, which is
    what is modelled.) -/
def parse_text_checked (text : List Char) : Option (List HdayEvent) :=
  if (parse_text text).all eventModelValid then some (parse_text text)
  else none

/-- flag_order of to_text. -/
def flag_order : List (List Char) :=
  ["business".toList, "weekend".toList, "birthday".toList, "ill".toList,
   "in".toList, "course".toList, "other".toList, "half_am".toList,
   "half_pm".toList, "onsite".toList, "no_fly".toList, "can_fly".toList]

/-- One line of to_text for one event. -/
def renderLine (ev : HdayEvent) : List Char :=
  let sorted_flags := flag_order.filter (fun f => decide (f ∈ ev.flags))
  let pref := sorted_flags.filterMap revGet
  match ev.type with
  | .range =>
    pref ++ ev.start ++ '-' :: ev.«end» ++
      (if ev.title = [] then [] else ' ' :: '#' :: ' ' :: ev.title)
  | .weekly =>
    'd' :: ((Nat.repr ev.weekday).toList ++ pref ++
      (if ev.title = [] then [] else ' ' :: '#' :: ' ' :: ev.title))
  | .unknown => ev.raw

/-- `'\n'.join`. -/
def joinLines : List (List Char) → List Char
  | [] => []
  | [l] => l
  | l :: l' :: rest => l ++ '\n' :: joinLines (l' :: rest)

/-- to_text. -/
def to_text (events : List HdayEvent) : List Char :=
  joinLines (events.map renderLine)

/-! ### Character-class facts -/

/-- No line-terminator character. -/
def Breakfree (l : List Char) : Prop := ∀ c ∈ l, isLineBreak c = false

instance (l : List Char) : Decidable (Breakfree l) :=
  List.decidableBAll (fun c => isLineBreak c = false) l

/-- Flag-exclusivity invariant: within each family all members of the list
    are equal (at most one distinct tag per family). -/
def FamilyUnique (flags : List (List Char)) : Prop :=
  (∀ x ∈ flags, ∀ y ∈ flags,
    x ∈ time_location_flags → y ∈ time_location_flags → x = y) ∧
  (∀ x ∈ flags, ∀ y ∈ flags, x ∈ type_flags → y ∈ type_flags → x = y)

/-- The invariants parse_text establishes for each event it builds; they
    are what makes a rendered line reparse to a render-equal event. -/
def GoodEvent (ev : HdayEvent) : Prop :=
  match ev.type with
  | .range =>
    dateShape ev.start = true ∧ dateShape ev.«end» = true ∧
    stripChars ev.title = ev.title ∧ Breakfree ev.title ∧
    FamilyUnique ev.flags
  | .weekly =>
    1 ≤ ev.weekday ∧ ev.weekday ≤ 7 ∧
    stripChars ev.title = ev.title ∧ Breakfree ev.title ∧
    FamilyUnique ev.flags
  | .unknown =>
    ev.raw ≠ [] ∧ stripChars ev.raw = ev.raw ∧ Breakfree ev.raw ∧
    matchRange ev.raw = none ∧ matchWeekly ev.raw = none

theorem digit_not_letter {c : Char} (h : isDigitCh c = true) :
    isAsciiLetter c = false := by
  simp [isDigitCh] at h
  simp [isAsciiLetter]
  omega

theorem digit_not_space {c : Char} (h : isDigitCh c = true) :
    isSpaceCh c = false := by
  simp [isDigitCh] at h
  simp [isSpaceCh]
  omega

theorem digit_not_break {c : Char} (h : isDigitCh c = true) :
    isLineBreak c = false := by
  simp [isDigitCh] at h
  simp [isLineBreak]
  omega

theorem letter_not_space {c : Char} (h : isAsciiLetter c = true) :
    isSpaceCh c = false := by
  simp [isAsciiLetter] at h
  simp [isSpaceCh]
  omega

theorem letter_not_break {c : Char} (h : isAsciiLetter c = true) :
    isLineBreak c = false := by
  simp [isAsciiLetter] at h
  simp [isLineBreak]
  omega

theorem letter_ne_cr {c : Char} (h : isAsciiLetter c = true) : c ≠ '\r' := by
  rintro rfl
  simp [isAsciiLetter] at h

theorem break_of_eq_cr {c : Char} (h : c = '\r') : isLineBreak c = true := by
  subst h; decide

/-! ### takeWhile / dropWhile over appends -/

theorem takeWhile_all {p : Char → Bool} :
    ∀ {a : List Char}, (∀ c ∈ a, p c = true) → a.takeWhile p = a
  | [], _ => rfl
  | c :: t, h => by
    simp only [List.takeWhile, h c (by simp)]
    exact congrArg (c :: ·) (takeWhile_all fun d hd => h d (by simp [hd]))

theorem dropWhile_all {p : Char → Bool} :
    ∀ {a : List Char}, (∀ c ∈ a, p c = true) → a.dropWhile p = []
  | [], _ => rfl
  | c :: t, h => by
    simp only [List.dropWhile, h c (by simp)]
    exact dropWhile_all fun d hd => h d (by simp [hd])

theorem takeWhile_append_cons {p : Char → Bool} {a : List Char} {x : Char}
    (b : List Char) (ha : ∀ c ∈ a, p c = true) (hx : p x = false) :
    (a ++ x :: b).takeWhile p = a := by
  induction a with
  | nil => simp [List.takeWhile, hx]
  | cons c t ih =>
    simp only [List.cons_append, List.takeWhile, ha c (by simp)]
    exact congrArg (c :: ·) (ih fun d hd => ha d (by simp [hd]))

theorem dropWhile_append_cons {p : Char → Bool} {a : List Char} {x : Char}
    (b : List Char) (ha : ∀ c ∈ a, p c = true) (hx : p x = false) :
    (a ++ x :: b).dropWhile p = x :: b := by
  induction a with
  | nil => simp [List.dropWhile, hx]
  | cons c t ih =>
    simp only [List.cons_append, List.dropWhile, ha c (by simp)]
    exact ih fun d hd => ha d (by simp [hd])

theorem dropWhile_cons_of_neg {p : Char → Bool} {x : Char} (b : List Char)
    (hx : p x = false) : (x :: b).dropWhile p = x :: b := by
  simp [List.dropWhile, hx]

theorem head?_dropWhile {p : Char → Bool} :
    ∀ {l : List Char} {c : Char}, (l.dropWhile p).head? = some c → p c = false
  | [], c, h => by simp [List.dropWhile] at h
  | a :: t, c, h => by
    by_cases hp : p a = true
    · exact head?_dropWhile (by simpa [List.dropWhile, hp] using h)
    · simp [List.dropWhile, hp] at h
      subst h
      simpa using hp

/-! ### stripChars -/

theorem reverse_dropWhile_pref (p : Char → Bool) (x : List Char) :
    List.IsPrefix ((x.reverse.dropWhile p).reverse) x := by
  have h0 : List.IsSuffix (x.reverse.dropWhile p) x.reverse :=
    List.dropWhile_suffix p
  have h1 := List.reverse_prefix.mpr h0
  rwa [List.reverse_reverse] at h1

theorem stripChars_pref_dropWhile (l : List Char) :
    List.IsPrefix (stripChars l) (l.dropWhile isSpaceCh) :=
  reverse_dropWhile_pref isSpaceCh (l.dropWhile isSpaceCh)

theorem stripChars_sublist (l : List Char) :
    List.Sublist (stripChars l) l :=
  List.Sublist.trans (stripChars_pref_dropWhile l).sublist
    (List.dropWhile_suffix isSpaceCh).sublist

theorem stripChars_head? {l : List Char} {c : Char}
    (h : (stripChars l).head? = some c) : isSpaceCh c = false := by
  have hne : stripChars l ≠ [] := by
    intro hnil; rw [hnil] at h; exact Option.noConfusion h
  obtain ⟨u, hu⟩ := stripChars_pref_dropWhile l
  apply head?_dropWhile (l := l) (c := c)
  rw [← hu, List.head?_append_of_ne_nil _ hne]
  exact h

theorem stripChars_getLast? {l : List Char} {c : Char}
    (h : (stripChars l).getLast? = some c) : isSpaceCh c = false := by
  unfold stripChars at h
  rw [List.getLast?_reverse] at h
  exact head?_dropWhile h

theorem stripChars_eq_self {l : List Char}
    (h1 : ∀ c, l.head? = some c → isSpaceCh c = false)
    (h2 : ∀ c, l.getLast? = some c → isSpaceCh c = false) :
    stripChars l = l := by
  cases l with
  | nil => rfl
  | cons a t =>
    cases hrev : (a :: t).reverse with
    | nil => simp at hrev
    | cons y s =>
      have hy : isSpaceCh y = false := by
        apply h2
        rw [← List.head?_reverse, hrev]
        rfl
      have hback : (y :: s).reverse = a :: t := by
        rw [← hrev, List.reverse_reverse]
      unfold stripChars
      rw [dropWhile_cons_of_neg _ (h1 a rfl), hrev,
        dropWhile_cons_of_neg _ hy, hback]

theorem stripChars_idem (l : List Char) :
    stripChars (stripChars l) = stripChars l :=
  stripChars_eq_self (fun _ h => stripChars_head? h)
    (fun _ h => stripChars_getLast? h)

theorem dropWhile_eq_self_of_head {p : Char → Bool} {l : List Char}
    (h : ∀ c, l.head? = some c → p c = false) : l.dropWhile p = l := by
  cases l with
  | nil => rfl
  | cons a t => exact dropWhile_cons_of_neg _ (h a rfl)

/-! ### splitlines -/

theorem normCRLF_eq_self : ∀ {l : List Char}, (∀ c ∈ l, c ≠ '\r') →
    normCRLF l = l
  | [], _ => rfl
  | [_], _ => rfl
  | c1 :: c2 :: rest, h => by
    rw [normCRLF, if_neg (fun hc => h c1 (by simp) hc.1),
      normCRLF_eq_self (fun d hd => h d (by simp at hd ⊢; tauto))]

theorem splitBreaks_append_nobreak :
    ∀ (a : List Char) (r cur : List Char), (∀ c ∈ a, isLineBreak c = false) →
      splitBreaks (a ++ r) cur = splitBreaks r (a.reverse ++ cur)
  | [], r, cur, _ => by simp
  | c :: a, r, cur, h => by
    have hc : isLineBreak c = false := h c (by simp)
    rw [List.cons_append, splitBreaks, if_neg (by simp [hc]),
      splitBreaks_append_nobreak a r (c :: cur)
        (fun d hd => h d (by simp [hd]))]
    simp

theorem joinLines_breakfree :
    ∀ {ls : List (List Char)},
      (∀ l ∈ ls, Breakfree l) → ∀ c ∈ joinLines ls, isLineBreak c = false ∨ c = '\n'
  | [], _, c, hc => by simp [joinLines] at hc
  | [l], h, c, hc => Or.inl (h l (by simp) c (by simpa [joinLines] using hc))
  | l :: l' :: ls, h, c, hc => by
    rw [joinLines] at hc
    rcases List.mem_append.mp hc with hc | hc
    · exact Or.inl (h l (by simp) c hc)
    · rcases List.mem_cons.mp hc with rfl | hc
      · exact Or.inr rfl
      · exact joinLines_breakfree (fun m hm => h m (by simp [hm])) c hc

theorem joinLines_no_cr {ls : List (List Char)}
    (h : ∀ l ∈ ls, Breakfree l) : ∀ c ∈ joinLines ls, c ≠ '\r' := by
  intro c hc hcr
  rcases joinLines_breakfree h c hc with hb | hn
  · rw [hcr] at hb; simp [isLineBreak] at hb
  · rw [hcr] at hn; exact absurd hn (by decide)

theorem pySplitlines_joinLines :
    ∀ (ls : List (List Char)),
      (∀ l ∈ ls, l ≠ [] ∧ Breakfree l) → pySplitlines (joinLines ls) = ls
  | [], _ => rfl
  | [l], h => by
    obtain ⟨hne, hbf⟩ := h l (by simp)
    unfold pySplitlines
    rw [joinLines, normCRLF_eq_self (fun c hc hcr =>
      absurd (break_of_eq_cr hcr) (by simp [hbf c hc]))]
    have := splitBreaks_append_nobreak l [] [] (fun c hc => hbf c hc)
    rw [List.append_nil] at this
    rw [this]
    simp [splitBreaks, hne]
  | l :: l' :: ls, h => by
    obtain ⟨hne, hbf⟩ := h l (by simp)
    unfold pySplitlines
    rw [joinLines, normCRLF_eq_self (fun c hc hcr => ?cr)]
    case cr =>
      rcases List.mem_append.mp hc with hc | hc
      · exact absurd (break_of_eq_cr hcr) (by simp [hbf c hc])
      · rcases List.mem_cons.mp hc with rfl | hc
        · exact absurd hcr (by decide)
        · exact joinLines_no_cr (fun m hm => (h m (by simp [hm])).2) c hc hcr
    rw [splitBreaks_append_nobreak l _ [] (fun c hc => hbf c hc)]
    simp only [splitBreaks, show isLineBreak '\n' = true from rfl, if_pos]
    rw [List.append_nil, List.reverse_reverse]
    have ih := pySplitlines_joinLines (l' :: ls)
      (fun m hm => h m (by simp [hm]))
    unfold pySplitlines at ih
    rw [normCRLF_eq_self (joinLines_no_cr
      (fun m hm => (h m (by simp [hm])).2))] at ih
    rw [ih]

theorem pySplitlines_breakfree :
    ∀ {l : List Char} {cur : List Char}, (∀ c ∈ cur, isLineBreak c = false) →
      ∀ m ∈ splitBreaks l cur, Breakfree m
  | [], cur, hcur, m, hm => by
    simp only [splitBreaks] at hm
    split at hm
    · simp at hm
    · rcases List.mem_singleton.mp hm with rfl
      intro c hc
      exact hcur c (by simpa using hc)
  | a :: l, cur, hcur, m, hm => by
    simp only [splitBreaks] at hm
    by_cases hb : isLineBreak a = true
    · rw [if_pos hb] at hm
      rcases List.mem_cons.mp hm with rfl | hm
      · intro c hc
        exact hcur c (by simpa using hc)
      · exact pySplitlines_breakfree (by simp) m hm
    · rw [if_neg hb] at hm
      refine pySplitlines_breakfree ?_ m hm
      intro c hc
      rcases List.mem_cons.mp hc with rfl | hc
      · simpa using hb
      · exact hcur c hc

theorem takeWhile_cons_of_pos {p : Char → Bool} {x : Char} (b : List Char)
    (hx : p x = true) : (x :: b).takeWhile p = x :: b.takeWhile p := by
  simp [List.takeWhile, hx]

theorem dropWhile_cons_of_pos {p : Char → Bool} {x : Char} (b : List Char)
    (hx : p x = true) : (x :: b).dropWhile p = b.dropWhile p := by
  simp [List.dropWhile, hx]

/-! ### matchDate -/

theorem dateShape_spec {d : List Char} (h : dateShape d = true) :
    ∃ c1 c2 c3 c4 c6 c7 c9 c10,
      d = [c1, c2, c3, c4, '/', c6, c7, '/', c9, c10] ∧
      isDigitCh c1 = true ∧ isDigitCh c2 = true ∧ isDigitCh c3 = true ∧
      isDigitCh c4 = true ∧ isDigitCh c6 = true ∧ isDigitCh c7 = true ∧
      isDigitCh c9 = true ∧ isDigitCh c10 = true := by
  unfold dateShape at h
  split at h
  case _ c1 c2 c3 c4 c5 c6 c7 c8 c9 c10 =>
    simp only [Bool.and_eq_true, decide_eq_true_eq, and_assoc] at h
    obtain ⟨h1, h2, h3, h4, h5, h6, h7, h8, h9, h10⟩ := h
    exact ⟨c1, c2, c3, c4, c6, c7, c9, c10, by rw [h5, h8], h1, h2, h3, h4,
      h6, h7, h9, h10⟩
  case _ => exact absurd h (by simp)

theorem dateShape_length {d : List Char} (h : dateShape d = true) :
    d.length = 10 := by
  obtain ⟨c1, c2, c3, c4, c6, c7, c9, c10, hd, -⟩ := dateShape_spec h
  rw [hd]
  rfl

theorem dateShape_ne_nil {d : List Char} (h : dateShape d = true) :
    d ≠ [] := by
  intro hnil
  rw [hnil] at h
  exact absurd h (by decide)

theorem dateShape_head {d : List Char} (h : dateShape d = true) :
    ∃ c, d.head? = some c ∧ isDigitCh c = true := by
  obtain ⟨c1, c2, c3, c4, c6, c7, c9, c10, hd, h1, -⟩ := dateShape_spec h
  exact ⟨c1, by rw [hd]; rfl, h1⟩

theorem dateShape_getLast {d : List Char} (h : dateShape d = true) :
    ∃ c, d.getLast? = some c ∧ isDigitCh c = true := by
  obtain ⟨c1, c2, c3, c4, c6, c7, c9, c10, hd, -, -, -, -, -, -, -, h10⟩ :=
    dateShape_spec h
  refine ⟨c10, ?_, h10⟩
  rw [hd]
  rfl

theorem dateShape_chars {d : List Char} (h : dateShape d = true) :
    ∀ c ∈ d, isAsciiLetter c = false ∧ isSpaceCh c = false ∧
      isLineBreak c = false := by
  obtain ⟨c1, c2, c3, c4, c6, c7, c9, c10, hd, h1, h2, h3, h4, h6, h7, h9,
    h10⟩ := dateShape_spec h
  subst hd
  intro c hc
  simp only [List.mem_cons, List.not_mem_nil, or_false] at hc
  rcases hc with rfl | rfl | rfl | rfl | rfl | rfl | rfl | rfl | rfl | rfl
  · exact ⟨digit_not_letter h1, digit_not_space h1, digit_not_break h1⟩
  · exact ⟨digit_not_letter h2, digit_not_space h2, digit_not_break h2⟩
  · exact ⟨digit_not_letter h3, digit_not_space h3, digit_not_break h3⟩
  · exact ⟨digit_not_letter h4, digit_not_space h4, digit_not_break h4⟩
  · exact ⟨by decide, by decide, by decide⟩
  · exact ⟨digit_not_letter h6, digit_not_space h6, digit_not_break h6⟩
  · exact ⟨digit_not_letter h7, digit_not_space h7, digit_not_break h7⟩
  · exact ⟨by decide, by decide, by decide⟩
  · exact ⟨digit_not_letter h9, digit_not_space h9, digit_not_break h9⟩
  · exact ⟨digit_not_letter h10, digit_not_space h10, digit_not_break h10⟩

theorem matchDate_eq_some {l d r : List Char}
    (h : matchDate l = some (d, r)) : dateShape d = true ∧ l = d ++ r := by
  unfold matchDate at h
  split at h
  case _ hds =>
    cases Option.some.inj h
    exact ⟨hds, (List.take_append_drop 10 l).symm⟩
  case _ => exact Option.noConfusion h

theorem matchDate_append {d : List Char} (r : List Char)
    (h : dateShape d = true) : matchDate (d ++ r) = some (d, r) := by
  have hlen : d.length = 10 := dateShape_length h
  have htake : (d ++ r).take 10 = d := by
    rw [← hlen]
    exact List.take_left d r
  have hdrop : (d ++ r).drop 10 = r := by
    rw [← hlen]
    exact List.drop_left d r
  unfold matchDate
  rw [htake, hdrop, if_pos h]

theorem matchDate_none_of_tail {l : List Char}
    (h : l.tail = [] ∨ ∃ c, l.tail.head? = some c ∧ isDigitCh c = false) :
    matchDate l = none := by
  unfold matchDate
  rw [if_neg]
  intro hds
  obtain ⟨c1, c2, c3, c4, c6, c7, c9, c10, hd, -, h2, -⟩ := dateShape_spec hds
  have hl : l = (l.take 10) ++ l.drop 10 := (List.take_append_drop 10 l).symm
  rw [hd] at hl
  rcases h with h | ⟨c, hc, hcd⟩
  · rw [hl] at h
    exact absurd h (by simp)
  · rw [hl] at hc
    simp only [List.cons_append, List.tail_cons, List.head?_cons,
      Option.some.injEq] at hc
    rw [hc, hcd] at h2
    exact Bool.noConfusion h2

/-! ### Flag-table facts -/

theorem flag_order_letter :
    ∀ f ∈ flag_order, ∃ c, revGet f = some c ∧ prefixGet c = some f ∧
      isAsciiLetter c = true ∧ isSpaceCh c = false ∧
      isLineBreak c = false ∧ isDigitCh c = false := by
  intro f hf
  fin_cases hf
  · exact ⟨'b', by decide⟩
  · exact ⟨'e', by decide⟩
  · exact ⟨'h', by decide⟩
  · exact ⟨'i', by decide⟩
  · exact ⟨'k', by decide⟩
  · exact ⟨'s', by decide⟩
  · exact ⟨'u', by decide⟩
  · exact ⟨'a', by decide⟩
  · exact ⟨'p', by decide⟩
  · exact ⟨'w', by decide⟩
  · exact ⟨'n', by decide⟩
  · exact ⟨'f', by decide⟩

theorem flagtag_head (ch : Char) :
    ("flag_".toList ++ [ch]).head? = some 'f' := rfl

theorem flagtag_not_flag_order (ch : Char) :
    ("flag_".toList ++ [ch]) ∉ flag_order := by
  intro h
  have h12 : ∀ f ∈ flag_order, f.head? ≠ some 'f' := by decide
  exact h12 _ h (flagtag_head ch)

theorem flagtag_not_tl (ch : Char) :
    ("flag_".toList ++ [ch]) ∉ time_location_flags := by
  intro h
  have h5 : ∀ f ∈ time_location_flags, f.head? ≠ some 'f' := by decide
  exact h5 _ h (flagtag_head ch)

theorem flagtag_not_ty (ch : Char) :
    ("flag_".toList ++ [ch]) ∉ type_flags := by
  intro h
  have h7 : ∀ f ∈ type_flags, f.head? ≠ some 'f' := by decide
  exact h7 _ h (flagtag_head ch)

theorem flagtag_ne_holiday (ch : Char) :
    ("flag_".toList ++ [ch]) ≠ "holiday".toList := by
  intro h
  have := congrArg List.head? h
  rw [flagtag_head] at this
  exact absurd this (by decide)

/-! ### normalize_flags -/

theorem keepFirstFam_sublist (fam flags : List (List Char)) :
    List.Sublist (keepFirstFam fam flags) flags := by
  unfold keepFirstFam
  split
  · exact List.Sublist.refl _
  · exact List.Sublist.refl _
  · exact List.filter_sublist flags

theorem keepFirstFam_pairwise (fam flags : List (List Char)) :
    ∀ x ∈ keepFirstFam fam flags, ∀ y ∈ keepFirstFam fam flags,
      x ∈ fam → y ∈ fam → x = y := by
  unfold keepFirstFam
  split
  case _ hf =>
    intro x hx y hy hxf _
    exfalso
    have : x ∈ flags.filter (fun f => decide (f ∈ fam)) :=
      List.mem_filter.mpr ⟨hx, by simpa using hxf⟩
    rw [hf] at this
    exact absurd this (List.not_mem_nil x)
  case _ a hf =>
    intro x hx y hy hxf hyf
    have hx' : x ∈ flags.filter (fun f => decide (f ∈ fam)) :=
      List.mem_filter.mpr ⟨hx, by simpa using hxf⟩
    have hy' : y ∈ flags.filter (fun f => decide (f ∈ fam)) :=
      List.mem_filter.mpr ⟨hy, by simpa using hyf⟩
    rw [hf] at hx' hy'
    rw [List.mem_singleton.mp hx', List.mem_singleton.mp hy']
  case _ a b t hf =>
    intro x hx y hy hxf hyf
    have hx' := (List.mem_filter.mp hx).2
    have hy' := (List.mem_filter.mp hy).2
    simp only [Bool.or_eq_true, Bool.not_eq_true', decide_eq_true_eq,
      decide_eq_false_iff_not] at hx' hy'
    rcases hx' with hx' | hx'
    · exact absurd hxf hx'
    · rcases hy' with hy' | hy'
      · exact absurd hyf hy'
      · rw [hx', hy']

theorem keepFirstFam_eq_self (fam flags : List (List Char))
    (h : ∀ x ∈ flags, ∀ y ∈ flags, x ∈ fam → y ∈ fam → x = y) :
    keepFirstFam fam flags = flags := by
  unfold keepFirstFam
  split
  · rfl
  · rfl
  case _ a b t hf =>
    apply List.filter_eq_self.mpr
    intro z hz
    by_cases hzf : z ∈ fam
    · have ha : a ∈ flags ∧ a ∈ fam := by
        have : a ∈ flags.filter (fun f => decide (f ∈ fam)) := by
          rw [hf]; exact List.mem_cons_self a (b :: t)
        have := List.mem_filter.mp this
        exact ⟨this.1, by simpa using this.2⟩
      have := h z hz a ha.1 hzf ha.2
      simp [this]
    · simp [hzf]

/-- The retained family member is the first one of the input, in order. -/
theorem keepFirstFam_mem_head (fam flags : List (List Char)) :
    ∀ x ∈ keepFirstFam fam flags, x ∈ fam →
      (flags.filter (fun f => decide (f ∈ fam))).head? = some x := by
  unfold keepFirstFam
  split
  case _ hf =>
    intro x hx hxf
    exfalso
    have : x ∈ flags.filter (fun f => decide (f ∈ fam)) :=
      List.mem_filter.mpr ⟨hx, by simpa using hxf⟩
    rw [hf] at this
    exact absurd this (List.not_mem_nil x)
  case _ a hf =>
    intro x hx hxf
    have hx' : x ∈ flags.filter (fun f => decide (f ∈ fam)) :=
      List.mem_filter.mpr ⟨hx, by simpa using hxf⟩
    rw [hf] at hx' ⊢
    rw [List.mem_singleton.mp hx']
    rfl
  case _ a b t hf =>
    intro x hx hxf
    have hx' := (List.mem_filter.mp hx).2
    simp only [Bool.or_eq_true, Bool.not_eq_true', decide_eq_true_eq,
      decide_eq_false_iff_not] at hx'
    rcases hx' with hx' | hx'
    · exact absurd hxf hx'
    · rw [hf, hx']
      rfl

theorem type_not_time_location {z : List Char} (h : z ∈ type_flags) :
    z ∉ time_location_flags := by
  fin_cases h <;> decide

/-- The time/location pass does not disturb the type-family members. -/
theorem filter_type_keepFirstFam_tl (flags : List (List Char)) :
    (keepFirstFam time_location_flags flags).filter
        (fun f => decide (f ∈ type_flags)) =
      flags.filter (fun f => decide (f ∈ type_flags)) := by
  unfold keepFirstFam
  split
  · rfl
  · rfl
  case _ a b t hf =>
    rw [List.filter_filter]
    apply List.filter_congr
    intro z _
    by_cases hzt : z ∈ type_flags
    · have := type_not_time_location hzt
      simp [hzt, this]
    · simp [hzt]

theorem normalize_flags_sublist (flags : List (List Char)) :
    List.Sublist (normalize_flags flags) flags :=
  List.Sublist.trans (keepFirstFam_sublist type_flags _)
    (keepFirstFam_sublist time_location_flags flags)

theorem normalize_flags_tl_pairwise (flags : List (List Char)) :
    ∀ x ∈ normalize_flags flags, ∀ y ∈ normalize_flags flags,
      x ∈ time_location_flags → y ∈ time_location_flags → x = y := by
  intro x hx y hy
  have hs := keepFirstFam_sublist type_flags
    (keepFirstFam time_location_flags flags)
  exact keepFirstFam_pairwise time_location_flags flags x (hs.subset hx) y
    (hs.subset hy)

theorem normalize_flags_ty_pairwise (flags : List (List Char)) :
    ∀ x ∈ normalize_flags flags, ∀ y ∈ normalize_flags flags,
      x ∈ type_flags → y ∈ type_flags → x = y :=
  keepFirstFam_pairwise type_flags (keepFirstFam time_location_flags flags)

theorem normalize_flags_idem (flags : List (List Char)) :
    normalize_flags (normalize_flags flags) = normalize_flags flags := by
  show keepFirstFam type_flags
      (keepFirstFam time_location_flags (normalize_flags flags)) =
    normalize_flags flags
  rw [keepFirstFam_eq_self time_location_flags _
    (normalize_flags_tl_pairwise flags)]
  exact keepFirstFam_eq_self type_flags _ (normalize_flags_ty_pairwise flags)

/-- Parsing a single stripped, non-blank, terminator-free line yields
    exactly the event classified from it. -/
theorem parse_text_single {ln : List Char} (h1 : ln ≠ [])
    (h2 : stripChars ln = ln) (h3 : Breakfree ln) :
    parse_text ln = [parseLine ln] := by
  unfold parse_text
  have hsplit : pySplitlines ln = [ln] := by
    have := pySplitlines_joinLines [ln]
      (fun m hm => by rcases List.mem_singleton.mp hm with rfl; exact ⟨h1, h3⟩)
    simpa [joinLines] using this
  rw [hsplit]
  simp [h2, h1]

/-! ### Specifications of the matchers -/

theorem matchTitle_title_sublist {r : List Char} {t : Option (List Char)}
    (h : matchTitle r = some t) : ∀ v, t = some v → List.Sublist v r := by
  intro v hv
  subst hv
  unfold matchTitle at h
  by_cases hr : r = []
  · rw [if_pos hr] at h
    exact Option.noConfusion (Option.some.inj h)
  · rw [if_neg hr] at h
    cases hds : r.dropWhile isSpaceCh with
    | nil =>
      simp only [hds] at h
      exact Option.noConfusion h
    | cons c after =>
      simp only [hds] at h
      by_cases hc : c = '#'
      · rw [if_pos hc] at h
        have hv2 : after.dropWhile isSpaceCh = v :=
          Option.some.inj (Option.some.inj h)
        rw [← hv2]
        have hx1 : List.Sublist (after.dropWhile isSpaceCh) after :=
          (List.dropWhile_suffix isSpaceCh).sublist
        have hx2 : List.Sublist (c :: after) r := by
          rw [← hds]
          exact (List.dropWhile_suffix isSpaceCh).sublist
        exact (hx1.trans (List.sublist_cons_self c after)).trans hx2
      · rw [if_neg hc] at h
        exact Option.noConfusion h

theorem matchRange_spec {ln pre start : List Char}
    {endo titleo : Option (List Char)}
    (h : matchRange ln = some (pre, start, endo, titleo)) :
    pre = ln.takeWhile isAsciiLetter ∧ dateShape start = true ∧
    (∀ e, endo = some e → dateShape e = true) ∧
    (∀ t, titleo = some t → List.Sublist t ln) := by
  unfold matchRange at h
  cases hmd : matchDate (ln.dropWhile isAsciiLetter) with
  | none => rw [hmd] at h; exact Option.noConfusion h
  | some p =>
    obtain ⟨start', r1⟩ := p
    rw [hmd, Option.some_bind] at h
    cases hmt : matchTitle (matchEnd r1).2 with
    | none => rw [hmt, Option.map_none'] at h; exact Option.noConfusion h
    | some t' =>
      rw [hmt, Option.map_some'] at h
      cases Option.some.inj h
      obtain ⟨hds, hsplit⟩ := matchDate_eq_some hmd
      refine ⟨rfl, hds, ?_, ?_⟩
      · intro e he
        -- the end group comes from matchDate inside matchEnd
        cases r1 with
        | nil =>
          simp only [matchEnd] at he
          exact Option.noConfusion he
        | cons c rest =>
          simp only [matchEnd] at he
          by_cases hc : c = '-'
          · rw [if_pos hc] at he
            cases hmd2 : matchDate rest with
            | none =>
              simp only [hmd2] at he
              exact Option.noConfusion he
            | some p2 =>
              obtain ⟨e2, r2⟩ := p2
              simp only [hmd2] at he
              cases Option.some.inj he
              exact (matchDate_eq_some hmd2).1
          · rw [if_neg hc] at he
            exact Option.noConfusion he
      · intro t ht
        have hx1 : List.Sublist t (matchEnd r1).2 :=
          matchTitle_title_sublist hmt t ht
        have hx2 : List.Sublist (matchEnd r1).2 r1 := by
          cases r1 with
          | nil => exact List.Sublist.refl _
          | cons c rest =>
            simp only [matchEnd]
            by_cases hc : c = '-'
            · rw [if_pos hc]
              cases hmd2 : matchDate rest with
              | none => exact List.Sublist.refl _
              | some p2 =>
                obtain ⟨e2, r2⟩ := p2
                have hsp := (matchDate_eq_some hmd2).2
                show List.Sublist r2 (c :: rest)
                have hstep : List.Sublist r2 rest := by
                  rw [hsp]
                  exact List.sublist_append_right e2 r2
                exact hstep.trans (List.sublist_cons_self c rest)
            · rw [if_neg hc]
        have hx3 : List.Sublist r1 ln := by
          have hx4 : List.Sublist r1 (List.dropWhile isAsciiLetter ln) := by
            rw [hsplit]
            exact List.sublist_append_right start' r1
          exact hx4.trans (List.dropWhile_suffix isAsciiLetter).sublist
        exact (hx1.trans hx2).trans hx3

theorem matchWeekly_spec {ln suf : List Char} {wd : Nat}
    {titleo : Option (List Char)}
    (h : matchWeekly ln = some (wd, suf, titleo)) :
    1 ≤ wd ∧ wd ≤ 7 ∧ (∀ t, titleo = some t → List.Sublist t ln) := by
  cases ln with
  | nil => exact Option.noConfusion h
  | cons d0 ln' =>
    cases ln' with
    | nil => exact Option.noConfusion h
    | cons w rest =>
      simp only [matchWeekly] at h
      by_cases hcond : (d0 = 'd' ∨ d0 = 'D') ∧ (49 ≤ w.toNat ∧ w.toNat ≤ 55)
      · rw [if_pos hcond] at h
        cases hmt : matchTitle (rest.dropWhile isAsciiLetter) with
        | none => rw [hmt, Option.map_none'] at h; exact Option.noConfusion h
        | some t' =>
          rw [hmt, Option.map_some'] at h
          cases Option.some.inj h
          obtain ⟨-, hw1, hw2⟩ := hcond
          refine ⟨by omega, by omega, ?_⟩
          intro t ht
          have hx1 : List.Sublist t (rest.dropWhile isAsciiLetter) :=
            matchTitle_title_sublist hmt t ht
          have hx2 : List.Sublist (rest.dropWhile isAsciiLetter) rest :=
            (List.dropWhile_suffix isAsciiLetter).sublist
          exact ((hx1.trans hx2).trans
            (List.sublist_cons_self w rest)).trans
            (List.sublist_cons_self d0 (w :: rest))
      · rw [if_neg hcond] at h
        exact Option.noConfusion h

/-! ### GoodEvent on the parse side -/

/-- Unfolding parseLine on a line matched by RE_RANGE. -/
theorem parseLine_range {ln pre start : List Char}
    {endOpt titleOpt : Option (List Char)}
    (h : matchRange ln = some (pre, start, endOpt, titleOpt)) :
    parseLine ln =
      { type := .range, start := start, «end» := endOpt.getD start,
        flags := addHoliday (normalize_flags (decodeFlags pre)),
        title := stripChars (titleOpt.getD []), raw := ln } := by
  unfold parseLine
  rw [h]

/-- Unfolding parseLine on a line matched by RE_WEEKLY only. -/
theorem parseLine_weekly {ln suf : List Char} {wd : Nat}
    {titleOpt : Option (List Char)} (h0 : matchRange ln = none)
    (h : matchWeekly ln = some (wd, suf, titleOpt)) :
    parseLine ln =
      { type := .weekly, weekday := wd,
        flags := addHoliday (normalize_flags (decodeFlags suf)),
        title := stripChars (titleOpt.getD []), raw := ln } := by
  unfold parseLine
  rw [h0, h]

/-- Unfolding parseLine on a line matching neither grammar. -/
theorem parseLine_unknown {ln : List Char} (h0 : matchRange ln = none)
    (h1 : matchWeekly ln = none) :
    parseLine ln =
      { type := .unknown, flags := ["holiday".toList], raw := ln } := by
  unfold parseLine
  rw [h0, h1]

theorem stripChars_nil : stripChars [] = [] := rfl

theorem familyUnique_normalize (flags : List (List Char)) :
    FamilyUnique (normalize_flags flags) :=
  ⟨normalize_flags_tl_pairwise flags, normalize_flags_ty_pairwise flags⟩

theorem familyUnique_addHoliday {flags : List (List Char)}
    (h : FamilyUnique flags) : FamilyUnique (addHoliday flags) := by
  unfold addHoliday
  split
  · exact h
  · constructor
    · intro x hx y hy hxf hyf
      rcases List.mem_append.mp hx with hx' | hx'
      · rcases List.mem_append.mp hy with hy' | hy'
        · exact h.1 x hx' y hy' hxf hyf
        · rw [List.mem_singleton.mp hy'] at hyf
          exact absurd hyf (by decide)
      · rw [List.mem_singleton.mp hx'] at hxf
        exact absurd hxf (by decide)
    · intro x hx y hy hxf hyf
      rcases List.mem_append.mp hx with hx' | hx'
      · rcases List.mem_append.mp hy with hy' | hy'
        · exact h.2 x hx' y hy' hxf hyf
        · rw [List.mem_singleton.mp hy'] at hyf
          exact absurd hyf (by decide)
      · rw [List.mem_singleton.mp hx'] at hxf
        exact absurd hxf (by decide)

theorem breakfree_of_sublist {l m : List Char} (hs : List.Sublist l m)
    (h : Breakfree m) : Breakfree l :=
  fun c hc => h c (hs.subset hc)

theorem parseLine_good {ln : List Char} (h1 : ln ≠ [])
    (h2 : stripChars ln = ln) (h3 : Breakfree ln) :
    GoodEvent (parseLine ln) := by
  cases hmr : matchRange ln with
  | some q =>
    obtain ⟨pre, start, endo, titleo⟩ := q
    rw [parseLine_range hmr]
    obtain ⟨-, hds, hend, htl⟩ := matchRange_spec hmr
    show dateShape start = true ∧ dateShape (endo.getD start) = true ∧
      stripChars (stripChars (titleo.getD [])) = stripChars (titleo.getD []) ∧
      Breakfree (stripChars (titleo.getD [])) ∧
      FamilyUnique (addHoliday (normalize_flags (decodeFlags pre)))
    refine ⟨hds, ?_, stripChars_idem _, ?_,
      familyUnique_addHoliday (familyUnique_normalize _)⟩
    · cases endo with
      | none => exact hds
      | some e => exact hend e rfl
    · apply breakfree_of_sublist (stripChars_sublist _)
      cases titleo with
      | none => intro c hc; exact absurd hc (List.not_mem_nil c)
      | some t => exact breakfree_of_sublist (htl t rfl) h3
  | none =>
    cases hmw : matchWeekly ln with
    | some q =>
      obtain ⟨wd, suf, titleo⟩ := q
      rw [parseLine_weekly hmr hmw]
      obtain ⟨hw1, hw2, htl⟩ := matchWeekly_spec hmw
      show 1 ≤ wd ∧ wd ≤ 7 ∧
        stripChars (stripChars (titleo.getD [])) = stripChars (titleo.getD []) ∧
        Breakfree (stripChars (titleo.getD [])) ∧
        FamilyUnique (addHoliday (normalize_flags (decodeFlags suf)))
      refine ⟨hw1, hw2, stripChars_idem _, ?_,
        familyUnique_addHoliday (familyUnique_normalize _)⟩
      apply breakfree_of_sublist (stripChars_sublist _)
      cases titleo with
      | none => intro c hc; exact absurd hc (List.not_mem_nil c)
      | some t => exact breakfree_of_sublist (htl t rfl) h3
    | none =>
      rw [parseLine_unknown hmr hmw]
      exact ⟨h1, h2, h3, hmr, hmw⟩

/-! ### The render side: recovering an event from its rendered line -/

theorem dropWhile_eq_self_of_stripped {t : List Char}
    (h : stripChars t = t) : t.dropWhile isSpaceCh = t := by
  apply dropWhile_eq_self_of_head
  intro c hc
  apply stripChars_head? (l := t)
  rw [h]
  exact hc

theorem matchTitle_nil : matchTitle [] = some none := rfl

theorem matchTitle_sharp {t : List Char} (ht : t.dropWhile isSpaceCh = t) :
    matchTitle (' ' :: '#' :: ' ' :: t) = some (some t) := by
  unfold matchTitle
  rw [if_neg (by simp), dropWhile_cons_of_pos _ (by decide),
    dropWhile_cons_of_neg _ (by decide)]
  show (if ('#' : Char) = '#' then
    some (some ((' ' :: t).dropWhile isSpaceCh)) else none) = some (some t)
  rw [if_pos rfl, dropWhile_cons_of_pos _ (by decide), ht]

theorem matchEnd_dash {E : List Char} (T : List Char)
    (hE : dateShape E = true) : matchEnd ('-' :: (E ++ T)) = (some E, T) := by
  simp only [matchEnd]
  rw [if_pos trivial, matchDate_append T hE]

theorem decodeFlags_filterMap_revGet {fs : List (List Char)}
    (h : ∀ f ∈ fs, f ∈ flag_order) :
    decodeFlags (fs.filterMap revGet) = fs := by
  induction fs with
  | nil => rfl
  | cons f fs ih =>
    obtain ⟨c, hrev, hpre, -⟩ := flag_order_letter f (h f (by simp))
    rw [List.filterMap_cons, hrev]
    show flagTagOf c :: decodeFlags (fs.filterMap revGet) = f :: fs
    rw [ih (fun g hg => h g (by simp [hg]))]
    congr 1
    unfold flagTagOf
    rw [hpre]
    rfl

theorem filterMap_revGet_letters {fs : List (List Char)}
    (h : ∀ f ∈ fs, f ∈ flag_order) :
    ∀ c ∈ fs.filterMap revGet, isAsciiLetter c = true ∧ isSpaceCh c = false ∧
      isLineBreak c = false ∧ isDigitCh c = false := by
  intro c hc
  rw [List.mem_filterMap] at hc
  obtain ⟨f, hf, hrev⟩ := hc
  obtain ⟨c', hrev', -, hl, hs, hb, hd⟩ := flag_order_letter f (h f hf)
  rw [hrev'] at hrev
  cases Option.some.inj hrev
  exact ⟨hl, hs, hb, hd⟩

theorem sorted_flags_mem_flag_order (flags : List (List Char)) :
    ∀ f ∈ flag_order.filter (fun g => decide (g ∈ flags)), f ∈ flag_order :=
  fun _f hf => (List.mem_filter.mp hf).1

theorem sorted_flags_normalize_fix {flags : List (List Char)}
    (hfu : FamilyUnique flags) :
    normalize_flags (flag_order.filter (fun g => decide (g ∈ flags))) =
      flag_order.filter (fun g => decide (g ∈ flags)) := by
  have hmem : ∀ x ∈ flag_order.filter (fun g => decide (g ∈ flags)),
      x ∈ flags := by
    intro x hx
    have := (List.mem_filter.mp hx).2
    simpa using this
  unfold normalize_flags
  rw [keepFirstFam_eq_self time_location_flags _
    (fun x hx y hy hxf hyf => hfu.1 x (hmem x hx) y (hmem y hy) hxf hyf),
    keepFirstFam_eq_self type_flags _
    (fun x hx y hy hxf hyf => hfu.2 x (hmem x hx) y (hmem y hy) hxf hyf)]

theorem filter_flag_order_addHoliday (flags : List (List Char)) :
    flag_order.filter (fun f =>
      decide (f ∈ addHoliday (flag_order.filter (fun g => decide (g ∈ flags))))) =
    flag_order.filter (fun f => decide (f ∈ flags)) := by
  apply List.filter_congr
  intro f hf
  have hhol : f ≠ "holiday".toList := by
    intro hfe
    rw [hfe] at hf
    exact absurd hf (by decide)
  simp only [decide_eq_decide]
  constructor
  · intro hmem
    unfold addHoliday at hmem
    split at hmem
    · have := (List.mem_filter.mp hmem).2
      simpa using this
    · rcases List.mem_append.mp hmem with hm | hm
      · have := (List.mem_filter.mp hm).2
        simpa using this
      · exact absurd (List.mem_singleton.mp hm) hhol
  · intro hmem
    have hs : f ∈ flag_order.filter (fun g => decide (g ∈ flags)) :=
      List.mem_filter.mpr ⟨hf, by simpa using hmem⟩
    unfold addHoliday
    split
    · exact hs
    · exact List.mem_append.mpr (Or.inl hs)

theorem renderLine_range_eq {ev : HdayEvent} (h : ev.type = .range) :
    renderLine ev =
      ((flag_order.filter (fun f => decide (f ∈ ev.flags))).filterMap revGet)
        ++ ev.start ++ '-' :: ev.«end» ++
        (if ev.title = [] then [] else ' ' :: '#' :: ' ' :: ev.title) := by
  unfold renderLine
  rw [h]

theorem renderLine_weekly_eq {ev : HdayEvent} (h : ev.type = .weekly) :
    renderLine ev = 'd' :: ((Nat.repr ev.weekday).toList ++
      ((flag_order.filter (fun f => decide (f ∈ ev.flags))).filterMap revGet)
        ++ (if ev.title = [] then [] else ' ' :: '#' :: ' ' :: ev.title)) := by
  unfold renderLine
  rw [h]

theorem renderLine_unknown_eq {ev : HdayEvent} (h : ev.type = .unknown) :
    renderLine ev = ev.raw := by
  unfold renderLine
  rw [h]

theorem weekday_repr {wd : Nat} (h1 : 1 ≤ wd) (h2 : wd ≤ 7) :
    ∃ w : Char, (Nat.repr wd).toList = [w] ∧ 49 ≤ w.toNat ∧ w.toNat ≤ 55 ∧
      w.toNat - 48 = wd ∧ isDigitCh w = true := by
  interval_cases wd <;> first
    | exact ⟨'1', by decide⟩
    | exact ⟨'2', by decide⟩
    | exact ⟨'3', by decide⟩
    | exact ⟨'4', by decide⟩
    | exact ⟨'5', by decide⟩
    | exact ⟨'6', by decide⟩
    | exact ⟨'7', by decide⟩

theorem split_letters_pref {P S R : List Char}
    (hP : ∀ c ∈ P, isAsciiLetter c = true) (hS : dateShape S = true) :
    (P ++ (S ++ R)).takeWhile isAsciiLetter = P ∧
    (P ++ (S ++ R)).dropWhile isAsciiLetter = S ++ R := by
  obtain ⟨s0, hs0, hd0⟩ := dateShape_head hS
  have hcons : S = s0 :: S.tail := List.eq_cons_of_mem_head? hs0
  constructor
  · conv_lhs => rw [hcons, List.cons_append]
    exact takeWhile_append_cons _ hP (digit_not_letter hd0)
  · conv_lhs => rw [hcons, List.cons_append]
    rw [dropWhile_append_cons _ hP (digit_not_letter hd0),
      ← List.cons_append, ← hcons]

theorem matchRange_render_core {P S E T : List Char}
    (hP : ∀ c ∈ P, isAsciiLetter c = true)
    (hS : dateShape S = true) (hE : dateShape E = true)
    {tOpt : Option (List Char)} (hT : matchTitle T = some tOpt) :
    matchRange (P ++ (S ++ ('-' :: (E ++ T)))) = some (P, S, some E, tOpt) := by
  unfold matchRange
  rw [(split_letters_pref hP hS).2, matchDate_append _ hS]
  simp only [Option.some_bind, matchEnd_dash T hE, hT, Option.map_some']
  rw [(split_letters_pref hP hS).1]

theorem range_line_head {P S R : List Char}
    (hP : ∀ c ∈ P, isSpaceCh c = false) (hS : dateShape S = true) :
    ∀ c, (P ++ (S ++ R)).head? = some c → isSpaceCh c = false := by
  intro c hc
  cases P with
  | nil =>
    simp only [List.nil_append] at hc
    obtain ⟨s0, hs0, hd0⟩ := dateShape_head hS
    have hcons : S = s0 :: S.tail := List.eq_cons_of_mem_head? hs0
    rw [hcons] at hc
    simp only [List.cons_append, List.head?_cons, Option.some.injEq] at hc
    rw [← hc]
    exact digit_not_space hd0
  | cons p0 P' =>
    simp only [List.cons_append, List.head?_cons, Option.some.injEq] at hc
    rw [← hc]
    exact hP p0 (by simp)

/-- The title part appended by to_text and the fact matchTitle recovers
    the title from it. -/
theorem title_part_matchTitle {t : List Char} (ht : stripChars t = t) :
    matchTitle (if t = [] then [] else ' ' :: '#' :: ' ' :: t) =
      some (if t = [] then none else some t) := by
  by_cases ht0 : t = []
  · rw [if_pos ht0, if_pos ht0]
    exact matchTitle_nil
  · rw [if_neg ht0, if_neg ht0]
    exact matchTitle_sharp (dropWhile_eq_self_of_stripped ht)

theorem title_part_strip {t : List Char} (ht : stripChars t = t) :
    stripChars ((if t = [] then (none : Option (List Char))
      else some t).getD []) = t := by
  by_cases ht0 : t = []
  · rw [if_pos ht0, ht0]
    rfl
  · rw [if_neg ht0]
    exact ht

theorem title_part_getLast {t : List Char} (ht : stripChars t = t)
    (ht0 : t ≠ []) :
    ∀ c, (' ' :: '#' :: ' ' :: t).getLast? = some c → isSpaceCh c = false := by
  intro c hc
  have : (' ' :: '#' :: ' ' :: t).getLast? = t.getLast? :=
    List.getLast?_append_of_ne_nil [' ', '#', ' '] ht0
  rw [this] at hc
  apply stripChars_getLast? (l := t)
  rw [ht]
  exact hc

theorem title_part_breakfree {t : List Char} (hbt : Breakfree t) :
    ∀ c ∈ (if t = [] then ([] : List Char) else ' ' :: '#' :: ' ' :: t),
      isLineBreak c = false := by
  intro c hc
  by_cases ht0 : t = []
  · rw [if_pos ht0] at hc
    exact absurd hc (List.not_mem_nil c)
  · rw [if_neg ht0] at hc
    rcases List.mem_cons.mp hc with rfl | hc
    · decide
    · rcases List.mem_cons.mp hc with rfl | hc
      · decide
      · rcases List.mem_cons.mp hc with rfl | hc
        · decide
        · exact hbt c hc

theorem letter_not_digit {c : Char} (h : isAsciiLetter c = true) :
    isDigitCh c = false := by
  simp [isAsciiLetter] at h
  simp [isDigitCh]
  omega

theorem mem_of_getLast?_eq {l : List Char} {c : Char}
    (h : l.getLast? = some c) : c ∈ l := by
  obtain ⟨hne, rfl⟩ := List.mem_getLast?_eq_getLast
    (by rw [Option.mem_def]; exact h)
  exact List.getLast_mem hne

theorem renderLine_range_mk (s e : List Char) (wd : Nat)
    (flags : List (List Char)) (title raw : List Char) :
    renderLine { type := .range, start := s, «end» := e, weekday := wd,
                 flags := flags, title := title, raw := raw } =
      ((flag_order.filter (fun f => decide (f ∈ flags))).filterMap revGet)
        ++ s ++ '-' :: e ++
        (if title = [] then [] else ' ' :: '#' :: ' ' :: title) := rfl

theorem renderLine_weekly_mk (s e : List Char) (wd : Nat)
    (flags : List (List Char)) (title raw : List Char) :
    renderLine { type := .weekly, start := s, «end» := e, weekday := wd,
                 flags := flags, title := title, raw := raw } =
      'd' :: ((Nat.repr wd).toList ++
        ((flag_order.filter (fun f => decide (f ∈ flags))).filterMap revGet)
        ++ (if title = [] then [] else ' ' :: '#' :: ' ' :: title)) := rfl

theorem renderLine_unknown_mk (s e : List Char) (wd : Nat)
    (flags : List (List Char)) (title raw : List Char) :
    renderLine { type := .unknown, start := s, «end» := e, weekday := wd,
                 flags := flags, title := title, raw := raw } = raw := rfl

theorem addHoliday_mem_cases {flags : List (List Char)} {f : List Char}
    (hf : f ∈ addHoliday flags) : f ∈ flags ∨ f = "holiday".toList := by
  unfold addHoliday at hf
  split at hf
  · exact Or.inl hf
  · rcases List.mem_append.mp hf with hm | hm
    · exact Or.inl hm
    · exact Or.inr (List.mem_singleton.mp hm)

/-- Round-trip for a well-formed range event: its rendered line is a
    stripped, non-blank, terminator-free line, and reparsing it yields an
    event that renders identically, carrying no flag beyond the original
    event's flags and the implicit holiday. -/
theorem roundtrip_range {ev : HdayEvent} (hty : ev.type = .range)
    (hS : dateShape ev.start = true) (hE : dateShape ev.«end» = true)
    (ht : stripChars ev.title = ev.title) (hbt : Breakfree ev.title)
    (hfu : FamilyUnique ev.flags) :
    renderLine ev ≠ [] ∧ stripChars (renderLine ev) = renderLine ev ∧
    Breakfree (renderLine ev) ∧
    renderLine (parseLine (renderLine ev)) = renderLine ev ∧
    ∀ f ∈ (parseLine (renderLine ev)).flags,
      f ∈ ev.flags ∨ f = "holiday".toList := by
  have hord := sorted_flags_mem_flag_order ev.flags
  have hPl := filterMap_revGet_letters hord
  have hL : renderLine ev =
      ((flag_order.filter (fun f => decide (f ∈ ev.flags))).filterMap revGet)
        ++ (ev.start ++ ('-' :: (ev.«end» ++
          (if ev.title = [] then [] else ' ' :: '#' :: ' ' :: ev.title)))) := by
    rw [renderLine_range_eq hty]
    simp [List.append_assoc]
  have hmr : matchRange (renderLine ev) = some
      ((flag_order.filter
          (fun f => decide (f ∈ ev.flags))).filterMap revGet,
        ev.start, some ev.«end»,
        if ev.title = [] then none else some ev.title) := by
    rw [hL]
    exact matchRange_render_core (fun c hc => (hPl c hc).1) hS hE
      (title_part_matchTitle ht)
  have hpl := parseLine_range hmr
  rw [decodeFlags_filterMap_revGet hord, sorted_flags_normalize_fix hfu]
    at hpl
  refine ⟨?_, ?_, ?_, ?_, ?_⟩
  · rw [hL]
    intro h0
    have hlen := congrArg List.length h0
    have hSlen := dateShape_length hS
    simp only [List.length_append, List.length_cons, List.length_nil] at hlen
    omega
  · rw [hL]
    apply stripChars_eq_self
    · exact range_line_head (fun c hc => (hPl c hc).2.1) hS
    · intro c hc
      have hne3 : ev.«end» ++ (if ev.title = [] then []
          else ' ' :: '#' :: ' ' :: ev.title) ≠ [] := by
        intro hnil
        exact dateShape_ne_nil hE (List.append_eq_nil.mp hnil).1
      rw [List.getLast?_append_of_ne_nil _ (by simp),
        List.getLast?_append_of_ne_nil _ (by simp),
        show ('-' :: (ev.«end» ++ (if ev.title = [] then []
            else ' ' :: '#' :: ' ' :: ev.title))).getLast? =
          (ev.«end» ++ (if ev.title = [] then []
            else ' ' :: '#' :: ' ' :: ev.title)).getLast? from
          List.getLast?_append_of_ne_nil ['-'] hne3] at hc
      by_cases ht0 : ev.title = []
      · rw [if_pos ht0, List.append_nil] at hc
        obtain ⟨c', hc', hd'⟩ := dateShape_getLast hE
        rw [hc'] at hc
        have : c' = c := by simpa using hc
        rw [← this]
        exact digit_not_space hd'
      · rw [if_neg ht0,
          List.getLast?_append_of_ne_nil _ (by simp)] at hc
        exact title_part_getLast ht ht0 c hc
  · rw [hL]
    intro c hc
    rcases List.mem_append.mp hc with hcP | hc1
    · exact (hPl c hcP).2.2.1
    · rcases List.mem_append.mp hc1 with hcS | hc2
      · exact (dateShape_chars hS c hcS).2.2
      · rcases List.mem_cons.mp hc2 with rfl | hc3
        · decide
        · rcases List.mem_append.mp hc3 with hcE | hcT
          · exact (dateShape_chars hE c hcE).2.2
          · exact title_part_breakfree hbt c hcT
  · rw [hpl, renderLine_range_mk, filter_flag_order_addHoliday ev.flags,
      title_part_strip ht]
    simp only [Option.getD_some]
    rw [renderLine_range_eq hty]
  · rw [hpl]
    intro f hf
    rcases addHoliday_mem_cases hf with hm | hm
    · exact Or.inl (by simpa using (List.mem_filter.mp hm).2)
    · exact Or.inr hm

/-- Round-trip for a well-formed weekly event. -/
theorem roundtrip_weekly {ev : HdayEvent} (hty : ev.type = .weekly)
    (hw1 : 1 ≤ ev.weekday) (hw2 : ev.weekday ≤ 7)
    (ht : stripChars ev.title = ev.title) (hbt : Breakfree ev.title)
    (hfu : FamilyUnique ev.flags) :
    renderLine ev ≠ [] ∧ stripChars (renderLine ev) = renderLine ev ∧
    Breakfree (renderLine ev) ∧
    renderLine (parseLine (renderLine ev)) = renderLine ev ∧
    ∀ f ∈ (parseLine (renderLine ev)).flags,
      f ∈ ev.flags ∨ f = "holiday".toList := by
  obtain ⟨w, hwr, hw49, hw55, hwval, hwd⟩ := weekday_repr hw1 hw2
  have hord := sorted_flags_mem_flag_order ev.flags
  have hPl := filterMap_revGet_letters hord
  have hL : renderLine ev = 'd' :: w ::
      (((flag_order.filter (fun f => decide (f ∈ ev.flags))).filterMap revGet)
        ++ (if ev.title = [] then [] else ' ' :: '#' :: ' ' :: ev.title)) := by
    rw [renderLine_weekly_eq hty, hwr]
    simp [List.append_assoc]
  have hsplitPT :
      List.takeWhile isAsciiLetter
        (((flag_order.filter
          (fun f => decide (f ∈ ev.flags))).filterMap revGet) ++
         (if ev.title = [] then [] else ' ' :: '#' :: ' ' :: ev.title)) =
        ((flag_order.filter
          (fun f => decide (f ∈ ev.flags))).filterMap revGet) ∧
      List.dropWhile isAsciiLetter
        (((flag_order.filter
          (fun f => decide (f ∈ ev.flags))).filterMap revGet) ++
         (if ev.title = [] then [] else ' ' :: '#' :: ' ' :: ev.title)) =
        (if ev.title = [] then [] else ' ' :: '#' :: ' ' :: ev.title) := by
    by_cases ht0 : ev.title = []
    · rw [if_pos ht0, List.append_nil]
      exact ⟨takeWhile_all (fun c hc => (hPl c hc).1),
        dropWhile_all (fun c hc => (hPl c hc).1)⟩
    · rw [if_neg ht0]
      exact ⟨takeWhile_append_cons _ (fun c hc => (hPl c hc).1) (by decide),
        dropWhile_append_cons _ (fun c hc => (hPl c hc).1) (by decide)⟩
  have hmrnone : matchRange (renderLine ev) = none := by
    rw [hL]
    unfold matchRange
    rw [dropWhile_cons_of_pos _ (by decide : isAsciiLetter 'd' = true),
      dropWhile_cons_of_neg _ (digit_not_letter hwd),
      matchDate_none_of_tail ?htail]
    case htail =>
      show (((flag_order.filter
            (fun f => decide (f ∈ ev.flags))).filterMap revGet) ++
          (if ev.title = [] then [] else ' ' :: '#' :: ' ' :: ev.title)) = [] ∨
        ∃ c, (((flag_order.filter
            (fun f => decide (f ∈ ev.flags))).filterMap revGet) ++
          (if ev.title = [] then [] else
            ' ' :: '#' :: ' ' :: ev.title)).head? = some c ∧
          isDigitCh c = false
      cases hPc : (flag_order.filter
          (fun f => decide (f ∈ ev.flags))).filterMap revGet with
      | nil =>
        by_cases ht0 : ev.title = []
        · left
          rw [if_pos ht0]
          rfl
        · right
          exact ⟨' ', by rw [if_neg ht0]; rfl, by decide⟩
      | cons p0 P' =>
        right
        refine ⟨p0, by simp, ?_⟩
        exact letter_not_digit (hPl p0 (by rw [hPc]; simp)).1
    rfl
  have hmw : matchWeekly (renderLine ev) = some (ev.weekday,
      ((flag_order.filter (fun f => decide (f ∈ ev.flags))).filterMap revGet),
      if ev.title = [] then none else some ev.title) := by
    rw [hL]
    simp only [matchWeekly]
    rw [if_pos ⟨Or.inl trivial, hw49, hw55⟩, hsplitPT.2,
      title_part_matchTitle ht, Option.map_some', hsplitPT.1, hwval]
  have hpl := parseLine_weekly hmrnone hmw
  rw [decodeFlags_filterMap_revGet hord, sorted_flags_normalize_fix hfu]
    at hpl
  refine ⟨?_, ?_, ?_, ?_, ?_⟩
  · rw [hL]
    simp
  · rw [hL]
    apply stripChars_eq_self
    · intro c hc
      simp only [List.head?_cons, Option.some.injEq] at hc
      rw [← hc]
      decide
    · intro c hc
      by_cases ht0 : ev.title = []
      · rw [if_pos ht0, List.append_nil] at hc
        cases hPc : (flag_order.filter
            (fun f => decide (f ∈ ev.flags))).filterMap revGet with
        | nil =>
          rw [hPc] at hc
          have : c = w := by
            have h2 : (['d', w] : List Char).getLast? = some w := rfl
            rw [h2] at hc
            simpa using hc.symm
          rw [this]
          exact digit_not_space hwd
        | cons p0 P' =>
          rw [hPc, List.getLast?_cons_cons, List.getLast?_cons_cons] at hc
          exact (hPl c (by rw [hPc]; exact mem_of_getLast?_eq hc)).2.1
      · rw [if_neg ht0,
          show ('d' :: w ::
              (((flag_order.filter
                (fun f => decide (f ∈ ev.flags))).filterMap revGet) ++
              (' ' :: '#' :: ' ' :: ev.title))).getLast? =
            ((((flag_order.filter
                (fun f => decide (f ∈ ev.flags))).filterMap revGet) ++
              (' ' :: '#' :: ' ' :: ev.title))).getLast? from
            List.getLast?_append_of_ne_nil ['d', w] (by simp),
          List.getLast?_append_of_ne_nil _ (by simp)] at hc
        exact title_part_getLast ht ht0 c hc
  · rw [hL]
    intro c hc
    rcases List.mem_cons.mp hc with rfl | hc1
    · decide
    · rcases List.mem_cons.mp hc1 with rfl | hc2
      · exact digit_not_break hwd
      · rcases List.mem_append.mp hc2 with hcP | hcT
        · exact (hPl c hcP).2.2.1
        · exact title_part_breakfree hbt c hcT
  · rw [hpl, renderLine_weekly_mk, filter_flag_order_addHoliday ev.flags,
      title_part_strip ht]
    rw [renderLine_weekly_eq hty]
  · rw [hpl]
    intro f hf
    rcases addHoliday_mem_cases hf with hm | hm
    · exact Or.inl (by simpa using (List.mem_filter.mp hm).2)
    · exact Or.inr hm

/-- Round-trip for an unknown event. -/
theorem roundtrip_unknown {ev : HdayEvent} (hty : ev.type = .unknown)
    (hne : ev.raw ≠ []) (hst : stripChars ev.raw = ev.raw)
    (hbf : Breakfree ev.raw) (hmr : matchRange ev.raw = none)
    (hmw : matchWeekly ev.raw = none) :
    renderLine ev ≠ [] ∧ stripChars (renderLine ev) = renderLine ev ∧
    Breakfree (renderLine ev) ∧
    renderLine (parseLine (renderLine ev)) = renderLine ev ∧
    ∀ f ∈ (parseLine (renderLine ev)).flags,
      f ∈ ev.flags ∨ f = "holiday".toList := by
  have hL : renderLine ev = ev.raw := renderLine_unknown_eq hty
  refine ⟨by rw [hL]; exact hne, by rw [hL]; exact hst,
    by rw [hL]; exact hbf, ?_, ?_⟩
  · rw [hL, parseLine_unknown hmr hmw, renderLine_unknown_mk]
  · rw [hL, parseLine_unknown hmr hmw]
    intro f hf
    exact Or.inr (List.mem_singleton.mp hf)

/-- Round-trip for every well-formed event. -/
theorem renderLine_good_roundtrip {ev : HdayEvent} (h : GoodEvent ev) :
    renderLine ev ≠ [] ∧ stripChars (renderLine ev) = renderLine ev ∧
    Breakfree (renderLine ev) ∧
    renderLine (parseLine (renderLine ev)) = renderLine ev ∧
    ∀ f ∈ (parseLine (renderLine ev)).flags,
      f ∈ ev.flags ∨ f = "holiday".toList := by
  cases hty : ev.type with
  | range =>
    unfold GoodEvent at h
    rw [hty] at h
    obtain ⟨hS, hE, ht, hbt, hfu⟩ := h
    exact roundtrip_range hty hS hE ht hbt hfu
  | weekly =>
    unfold GoodEvent at h
    rw [hty] at h
    obtain ⟨hw1, hw2, ht, hbt, hfu⟩ := h
    exact roundtrip_weekly hty hw1 hw2 ht hbt hfu
  | unknown =>
    unfold GoodEvent at h
    rw [hty] at h
    obtain ⟨hne, hst, hbf, hmr, hmw⟩ := h
    exact roundtrip_unknown hty hne hst hbf hmr hmw

/-! ### Lifting the per-line round-trip to whole documents -/

theorem parse_text_events_good (text : List Char) :
    ∀ ev ∈ parse_text text, GoodEvent ev := by
  intro ev hev
  unfold parse_text at hev
  rw [List.mem_map] at hev
  obtain ⟨ln, hln, rfl⟩ := hev
  rw [List.mem_map] at hln
  obtain ⟨l0, hl0, rfl⟩ := hln
  have hfl := List.mem_filter.mp hl0
  have hne : stripChars l0 ≠ [] := by
    have := hfl.2
    simp only [Bool.not_eq_true'] at this
    intro hnil
    rw [hnil] at this
    exact absurd this (by decide)
  have hbf0 : Breakfree l0 :=
    pySplitlines_breakfree (by simp) l0 hfl.1
  exact parseLine_good hne (stripChars_idem l0)
    (breakfree_of_sublist (stripChars_sublist l0) hbf0)

theorem parse_text_of_to_text {evs : List HdayEvent}
    (hgood : ∀ ev ∈ evs, GoodEvent ev) :
    parse_text (to_text evs) =
      evs.map (fun ev => parseLine (renderLine ev)) := by
  unfold parse_text to_text
  have hsplit : pySplitlines (joinLines (evs.map renderLine)) =
      evs.map renderLine := by
    apply pySplitlines_joinLines
    intro l hl
    rw [List.mem_map] at hl
    obtain ⟨ev, hev, rfl⟩ := hl
    obtain ⟨hne, -, hbf, -⟩ := renderLine_good_roundtrip (hgood ev hev)
    exact ⟨hne, hbf⟩
  rw [hsplit]
  have hfilter : (evs.map renderLine).filter
      (fun l => !(stripChars l).isEmpty) = evs.map renderLine := by
    apply List.filter_eq_self.mpr
    intro l hl
    rw [List.mem_map] at hl
    obtain ⟨ev, hev, rfl⟩ := hl
    obtain ⟨hne, hst, -, -⟩ := renderLine_good_roundtrip (hgood ev hev)
    rw [hst]
    simp [List.isEmpty_iff, hne]
  rw [hfilter]
  have hstripmap : (evs.map renderLine).map stripChars =
      evs.map renderLine := by
    rw [List.map_map]
    apply List.map_congr_left
    intro ev hev
    exact (renderLine_good_roundtrip (hgood ev hev)).2.1
  rw [hstripmap, List.map_map]
  rfl

/-! ### Concrete claims -/

/-- C1: parse_text is claimed never to raise, but parser.py hands the
    pydantic model flag values that the `Flag` Literal of models.py
    rejects: on input `"w2024/01/01"` the parsed event carries the flag
    `'onsite'`, which is not among the values `Flag` allows, so
    constructing the HdayEvent raises a ValidationError. -/
theorem C1_parse_raises_on_model_invalid_flag :
    (parse_text "w2024/01/01".toList).map HdayEvent.flags =
      [["onsite".toList, "holiday".toList]] ∧
    "onsite".toList ∉ Flag_allowed := by
  decide

/-- C6: flag-letter decoding is claimed case-insensitive, but parser.py
    looks the letter up in PREFIX_MAP without lowercasing it: the regex
    (compiled with re.I) admits `'B'` into the prefix, yet `'B'` decodes to
    the opaque tag `'flag_B'` while `'b'` decodes to `'business'`. -/
theorem C6_uppercase_letter_not_case_insensitive :
    (parse_text "B2024/01/10".toList).map HdayEvent.flags =
      [["flag_B".toList, "holiday".toList]] ∧
    (parse_text "b2024/01/10".toList).map HdayEvent.flags =
      [["business".toList]] ∧
    ["flag_B".toList, "holiday".toList] ≠ ["business".toList] := by
  decide

/-- C7: the spec's weekly example crashes the real parser: for the line
    `"d3w # onsite Wednesdays"` parser.py decodes the flags
    [onsite, holiday], and 'onsite' is not a value the Flag Literal of
    models.py accepts, so constructing the HdayEvent raises a
    ValidationError instead of returning the claimed WeeklyEvent. -/
theorem C7_weekly_example_raises :
    (parse_text "d3w # onsite Wednesdays".toList).map HdayEvent.flags =
      [["onsite".toList, "holiday".toList]] ∧
    "onsite".toList ∉ Flag_allowed ∧
    parse_text_checked "d3w # onsite Wednesdays".toList = none := by
  decide

/-- C8: on `"bs2024/01/10"` the letters decode to business then course,
    normalize_flags keeps only the first-seen type flag business, and the
    event renders as `"b2024/01/10-2024/01/10"` with the end date
    defaulting to the start date. -/
theorem C8_range_example_first_type_flag_kept :
    decodeFlags "bs".toList = ["business".toList, "course".toList] ∧
    normalize_flags ["business".toList, "course".toList] =
      ["business".toList] ∧
    parse_text "bs2024/01/10".toList =
      [{ type := .range, start := "2024/01/10".toList,
         «end» := "2024/01/10".toList, flags := ["business".toList],
         title := [], raw := "bs2024/01/10".toList }] ∧
    to_text (parse_text "bs2024/01/10".toList) =
      "b2024/01/10-2024/01/10".toList := by
  decide

/-- C9: the letter↔tag table is exactly invertible on its entries, and the
    derived holiday tag encodes to no letter. -/
theorem C9_prefix_map_invertible :
    (∀ p ∈ PREFIX_MAP, revGet p.2 = some p.1 ∧ prefixGet p.1 = some p.2) ∧
    revGet "holiday".toList = none := by
  decide

/-- C9 witness: the invertibility theorem applied at the concrete entry
    `('a', half_am)`. -/
theorem C9_prefix_map_invertible_witness :
    revGet "half_am".toList = some 'a' ∧ prefixGet 'a' = some "half_am".toList :=
  C9_prefix_map_invertible.1 ('a', "half_am".toList) (by decide)

/-- C3: unrecognized letters do not survive the codec: parser.py decodes
    the unmapped letter 'z' to the opaque tag 'flag_z', which the Flag
    Literal of models.py rejects, so the real parse raises a
    ValidationError instead of returning the event; and even the
    pre-validation event would render without the letter, since to_text
    drops every flag that has no REV_MAP entry. -/
theorem C3_unknown_letter_not_preserved :
    (parse_text "z2024/01/10".toList).map HdayEvent.flags =
      [["flag_z".toList, "holiday".toList]] ∧
    "flag_z".toList ∉ Flag_allowed ∧
    parse_text_checked "z2024/01/10".toList = none ∧
    to_text (parse_text "z2024/01/10".toList) =
      "2024/01/10-2024/01/10".toList := by
  decide

/-- C4 counterexample: on `"aa2024/02/02"` the decoded letters are two
    copies of half_am; normalize_flags keeps both occurrences (it discards
    only family members differing from the first), so the parsed event's
    flag list contains the time/location-family tag twice. -/
theorem C4_counterexample_duplicate_flag_occurrences :
    (parse_text "aa2024/02/02".toList).map HdayEvent.flags =
      [["half_am".toList, "half_am".toList, "holiday".toList]] ∧
    (["half_am".toList, "half_am".toList, "holiday".toList].filter
        (fun f => decide (f ∈ time_location_flags))).length = 2 := by
  decide

/-- C10: normalize_flags is order-preserving — its output is a
    subsequence of its input — and idempotent. -/
theorem C10_normalize_idempotent_sublist (flags : List (List Char)) :
    List.Sublist (normalize_flags flags) flags ∧
    normalize_flags (normalize_flags flags) = normalize_flags flags :=
  ⟨normalize_flags_sublist flags, normalize_flags_idem flags⟩

/-- C4 amended: after normalize_flags the flag list carries at most one
    DISTINCT tag per family (all family members of the output are equal),
    and that tag is the first family member in decode order; occurrences
    equal to the retained tag are all kept, so the list may still repeat
    the one retained tag — only family members differing from it are
    discarded.  The function is total, so no error is raised. -/
theorem C4_amended_family_uniqueness (flags : List (List Char)) :
    (∀ x ∈ normalize_flags flags, ∀ y ∈ normalize_flags flags,
        x ∈ time_location_flags → y ∈ time_location_flags → x = y) ∧
    (∀ x ∈ normalize_flags flags, ∀ y ∈ normalize_flags flags,
        x ∈ type_flags → y ∈ type_flags → x = y) ∧
    (∀ x ∈ normalize_flags flags, x ∈ time_location_flags →
        (flags.filter
          (fun f => decide (f ∈ time_location_flags))).head? = some x) ∧
    (∀ x ∈ normalize_flags flags, x ∈ type_flags →
        (flags.filter (fun f => decide (f ∈ type_flags))).head? = some x) := by
  refine ⟨normalize_flags_tl_pairwise flags,
    normalize_flags_ty_pairwise flags, ?_, ?_⟩
  · intro x hx hxf
    have hs := keepFirstFam_sublist type_flags
      (keepFirstFam time_location_flags flags)
    exact keepFirstFam_mem_head time_location_flags flags x
      (hs.subset hx) hxf
  · intro x hx hxf
    have := keepFirstFam_mem_head type_flags
      (keepFirstFam time_location_flags flags) x hx hxf
    rwa [filter_type_keepFirstFam_tl] at this

/-- C4 amended, witness: on decode order half_am, half_pm, business,
    course, the retained time/location tag is half_am, the first seen. -/
theorem C4_amended_family_uniqueness_witness :
    (["half_am".toList, "half_pm".toList, "business".toList,
      "course".toList].filter
        (fun f => decide (f ∈ time_location_flags))).head? =
      some "half_am".toList :=
  (C4_amended_family_uniqueness
    ["half_am".toList, "half_pm".toList, "business".toList,
      "course".toList]).2.2.1
    "half_am".toList (by decide) (by decide)

/-- C5: a stripped, non-blank line that matches neither the range nor the
    weekly grammar parses to an UnknownEvent storing the line verbatim,
    and rendering emits it back byte-for-byte identically. -/
theorem C5_unknown_passthrough {ln : List Char} (h1 : ln ≠ [])
    (h2 : stripChars ln = ln) (h3 : Breakfree ln)
    (h4 : matchRange ln = none) (h5 : matchWeekly ln = none) :
    parse_text ln =
      [{ type := .unknown, flags := ["holiday".toList], raw := ln }] ∧
    to_text (parse_text ln) = ln := by
  have hp := parse_text_single h1 h2 h3
  have hline : parseLine ln =
      { type := .unknown, flags := ["holiday".toList], raw := ln } := by
    unfold parseLine
    rw [h4, h5]
  rw [hp, hline]
  exact ⟨rfl, rfl⟩

/-- C5 witness at the spec's own example line. -/
theorem C5_unknown_passthrough_witness :
    parse_text "not a valid line".toList =
      [{ type := .unknown, flags := ["holiday".toList],
         raw := "not a valid line".toList }] ∧
    to_text (parse_text "not a valid line".toList) =
      "not a valid line".toList :=
  C5_unknown_passthrough (by decide) (by decide) (by decide) (by decide)
    (by decide)

/-- On the pre-validation algorithm: rendering the reparse of rendered
    output is byte-identical to the first rendered output. -/
theorem to_text_parse_text_idem (text : List Char) :
    to_text (parse_text (to_text (parse_text text))) =
      to_text (parse_text text) := by
  have hgood := parse_text_events_good text
  rw [parse_text_of_to_text hgood]
  unfold to_text
  rw [List.map_map]
  apply congrArg joinLines
  apply List.map_congr_left
  intro ev hev
  exact (renderLine_good_roundtrip (hgood ev hev)).2.2.2.1

/-- Reparsing the rendered output of Literal-valid events yields only
    Literal-valid events: every reparsed flag is one of the original
    event's flags or the implicit holiday, which the Literal accepts. -/
theorem reparse_all_valid {evs : List HdayEvent}
    (hgood : ∀ ev ∈ evs, GoodEvent ev)
    (hval : ∀ ev ∈ evs, eventModelValid ev = true) :
    ∀ ev2 ∈ evs.map (fun ev => parseLine (renderLine ev)),
      eventModelValid ev2 = true := by
  intro ev2 hev2
  rw [List.mem_map] at hev2
  obtain ⟨ev, hev, rfl⟩ := hev2
  have hsub := (renderLine_good_roundtrip (hgood ev hev)).2.2.2.2
  unfold eventModelValid
  rw [List.all_eq_true]
  intro f hf
  rcases hsub f hf with hm | hm
  · have hv := hval ev hev
    unfold eventModelValid at hv
    rw [List.all_eq_true] at hv
    exact hv f hm
  · rw [hm]
    decide

/-- C2 counterexample: the claimed fixed point fails on the input text
    "w2024/01/01": the first parse already raises a ValidationError (the
    decoded flag 'onsite' is outside the Flag Literal of models.py), so
    render(parse(text)) produces no output at all, let alone a stable
    one. -/
theorem C2_counterexample_parse_raises :
    parse_text_checked "w2024/01/01".toList = none ∧
    (parse_text "w2024/01/01".toList).all eventModelValid = false := by
  decide

/-- C2 amended: whenever parse does not raise — every parsed event's
    flags lie within the Flag Literal of models.py — one parse-then-render
    pass reaches a fixed point: the reparse of the rendered output does
    not raise either, and rendering it is byte-identical to the first
    rendered output. -/
theorem C2_amended_idempotent_unless_raise (text : List Char)
    (h : parse_text_checked text ≠ none) :
    parse_text_checked (to_text (parse_text text)) =
      some (parse_text (to_text (parse_text text))) ∧
    to_text (parse_text (to_text (parse_text text))) =
      to_text (parse_text text) := by
  have hall : (parse_text text).all eventModelValid = true := by
    by_contra hcon
    apply h
    unfold parse_text_checked
    rw [if_neg hcon]
  have hv : (parse_text (to_text (parse_text text))).all
      eventModelValid = true := by
    rw [parse_text_of_to_text (parse_text_events_good text),
      List.all_eq_true]
    exact reparse_all_valid (parse_text_events_good text)
      (List.all_eq_true.mp hall)
  constructor
  · unfold parse_text_checked
    rw [if_pos hv]
  · exact to_text_parse_text_idem text

/-- C2 amended, witness: a three-line document whose flags all stay
    inside the Flag Literal round-trips stably with no raise. -/
theorem C2_amended_idempotent_unless_raise_witness :
    parse_text_checked
        (to_text (parse_text "b2024/01/10\nd3\nzz".toList)) =
      some (parse_text (to_text (parse_text "b2024/01/10\nd3\nzz".toList))) ∧
    to_text (parse_text (to_text (parse_text "b2024/01/10\nd3\nzz".toList))) =
      to_text (parse_text "b2024/01/10\nd3\nzz".toList) :=
  C2_amended_idempotent_unless_raise "b2024/01/10\nd3\nzz".toList (by decide)

end Hday
